import Mathlib

/-
  Shallow embedding of the decision-tree engine generated by the
  `classification_data_layout!` macro in src/src/lib.rs.

  Modelling choices:
  * The macro is generic over a caller-declared schema.  We model a schema with
    `nE` equality-compared fields (values in a type `E` with decidable `==`)
    and `nN` order-compared number fields (values in a linearly ordered `N`),
    plus a label type `C` (the `class` field; renamed `cls` because `class` is
    a Lean keyword).
  * Rust `f32` arithmetic is embedded as exact rational arithmetic over `ℚ`.
  * `HashMap<$class, i32>` label counts are embedded as an insertion-ordered
    association list `List (C × Nat)` (entry/or_insert/+= 1 semantics).
  * `HashSet<Question>` in `unique_questions` has unspecified iteration order;
    we fix the canonical insertion order (first occurrence wins) for the list
    of candidates, matching insertion into the set during the data scan.
  * Loops that push into vectors become structural recursion / folds producing
    the same sequences in the same order.
-/

set_option linter.unusedSectionVars false

namespace DecisionLeaf

/-- The `DataPoint` struct (lib.rs lines 51-56): one value per equality field,
one per number field, and a `class` label (field renamed `cls`). -/
structure DataPoint (nE nN : Nat) (E N C : Type) where
  eqv : Fin nE → E
  num : Fin nN → N
  cls : C
deriving DecidableEq

/-- The `Field` enum (lib.rs lines 58-62): one tag per schema field, equality
fields listed before number fields. -/
inductive Field (nE nN : Nat) where
  | eqF : Fin nE → Field nE nN
  | numF : Fin nN → Field nE nN
deriving DecidableEq

/-- The `Question` enum (lib.rs lines 64-68): a field paired with a concrete
comparison value. -/
inductive Question (nE nN : Nat) (E N : Type) where
  | eqQ : Fin nE → E → Question nE nN E N
  | geQ : Fin nN → N → Question nE nN E N
deriving DecidableEq

/-- The `Node` enum (lib.rs lines 70-78): a leaf with a label-count
distribution, or a decision node with a question and two children. -/
inductive Node (nE nN : Nat) (E N C : Type) where
  | Leaf : List (C × Nat) → Node nE nN E N C
  | Decision : Question nE nN E N → Node nE nN E N C → Node nE nN E N C →
      Node nE nN E N C

variable {nE nN : Nat} {E N C : Type} [DecidableEq E] [LinearOrder N]
variable [DecidableEq C]

/-- `check` (lib.rs lines 129-138): equality fields compare with `==`, number
fields with `>=`. -/
def check (q : Question nE nN E N) (val : DataPoint nE nN E N C) : Bool :=
  match q with
  | .eqQ i x => decide (x = val.eqv i)
  | .geQ i x => decide (val.num i ≥ x)

/-- The per-point question built inside the loop of `unique_questions`
(lib.rs lines 144-148). -/
def mkQuestion (t : Field nE nN) (point : DataPoint nE nN E N C) :
    Question nE nN E N :=
  match t with
  | .eqF i => .eqQ i (point.eqv i)
  | .numF i => .geQ i (point.num i)

/-- Insertion into the candidate set of `unique_questions`: a duplicate value
is dropped, a new one is appended (HashSet insert, insertion-order model). -/
def insertQ (s : List (Question nE nN E N)) (q : Question nE nN E N) :
    List (Question nE nN E N) :=
  if q ∈ s then s else s ++ [q]

/-- `unique_questions` (lib.rs lines 140-152): the distinct values a field
takes across the data, one question per distinct value. -/
def unique_questions (data : List (DataPoint nE nN E N C)) (t : Field nE nN) :
    List (Question nE nN E N) :=
  data.foldl (fun s point => insertQ s (mkQuestion t point)) []

/-- One step of `class_counts`: `map.entry(class).or_insert(0); *count += 1`
(lib.rs lines 156-157) on the association-list model. -/
def bump (m : List (C × Nat)) (c : C) : List (C × Nat) :=
  match m with
  | [] => [(c, 1)]
  | (k, n) :: rest => if k = c then (k, n + 1) :: rest else (k, n) :: bump rest c

/-- `class_counts` (lib.rs lines 153-160): label-count distribution of a
record list. -/
def class_counts (data : List (DataPoint nE nN E N C)) : List (C × Nat) :=
  data.foldl (fun m point => bump m point.cls) []

/-- Lookup in the association-list model of the counts map. -/
def lookupCount (m : List (C × Nat)) (c : C) : Nat :=
  match m with
  | [] => 0
  | (k, n) :: rest => if k = c then n else lookupCount rest c

/-- `partition` (lib.rs lines 161-173): scan the data in order, pushing each
point onto the true side when `check` holds, else onto the false side. -/
def partition (q : Question nE nN E N) :
    List (DataPoint nE nN E N C) →
      List (DataPoint nE nN E N C) × List (DataPoint nE nN E N C)
  | [] => ([], [])
  | point :: rest =>
      if check q point then
        (point :: (partition q rest).1, (partition q rest).2)
      else
        ((partition q rest).1, point :: (partition q rest).2)

/-- `gini` (lib.rs lines 175-183): start from impurity 1 and subtract
`(count/len)^2` for each label of the counts map. -/
def gini (data : List (DataPoint nE nN E N C)) : ℚ :=
  (class_counts data).foldl
    (fun impurity kv => impurity - ((kv.2 : ℚ) / (data.length : ℚ)) ^ 2) 1

/-- `info_gain` (lib.rs lines 185-188). -/
def info_gain (left right : List (DataPoint nE nN E N C))
    (cur_uncertainty : ℚ) : ℚ :=
  (fun p => cur_uncertainty - p * gini left - (1 - p) * gini right)
    ((left.length : ℚ) / ((left.length : ℚ) + (right.length : ℚ)))

/-- The body of the inner loop of `find_best_split` (lib.rs lines 197-209):
skip a candidate whose partition has an empty side, otherwise update the held
best when `gain >= best_gain`. -/
def stepQ (data : List (DataPoint nE nN E N C)) (cur : ℚ)
    (best : ℚ × Option (Question nE nN E N)) (question : Question nE nN E N) :
    ℚ × Option (Question nE nN E N) :=
  if (partition question data).1.length = 0 ∨
      (partition question data).2.length = 0 then best
  else
    if best.1 ≤ info_gain (partition question data).1
        (partition question data).2 cur then
      (info_gain (partition question data).1 (partition question data).2 cur,
        some question)
    else best

/-- The field iteration order of `find_best_split` (lib.rs line 194): all
equality fields in declaration order, then all number fields. -/
def fields (nE nN : Nat) : List (Field nE nN) :=
  (List.finRange nE).map Field.eqF ++ (List.finRange nN).map Field.numF

/-- `find_best_split` (lib.rs lines 189-212): nested loops over fields and
their unique questions, starting from `(0, None)`. -/
def find_best_split (data : List (DataPoint nE nN E N C)) :
    ℚ × Option (Question nE nN E N) :=
  (fields nE nN).foldl
    (fun best f => (unique_questions data f).foldl (stepQ data (gini data)) best)
    (0, none)

/-- The flattened candidate enumeration of `find_best_split`: every unique
question of every field, in scan order. -/
def allQuestions (data : List (DataPoint nE nN E N C)) :
    List (Question nE nN E N) :=
  (fields nE nN).foldl (fun acc f => acc ++ unique_questions data f) []

/-- A valid split: both sides of the partition are non-empty (the candidates
`find_best_split` does not skip at lib.rs lines 200-202). -/
def validSplit (data : List (DataPoint nE nN E N C))
    (q : Question nE nN E N) : Prop :=
  (partition q data).1 ≠ [] ∧ (partition q data).2 ≠ []

/-- Invariant of the `find_best_split` scan state: a `none` question comes with
gain 0, and a held question always denotes a valid split. -/
def goodState (data : List (DataPoint nE nN E N C))
    (b : ℚ × Option (Question nE nN E N)) : Prop :=
  (b.2 = none → b.1 = 0) ∧ ∀ q, b.2 = some q → validSplit data q

theorem partition_eq_filter (q : Question nE nN E N)
    (data : List (DataPoint nE nN E N C)) :
    partition q data =
      (data.filter (fun p => check q p), data.filter (fun p => !check q p)) := by
  induction data with
  | nil => rfl
  | cons point rest ih =>
    simp only [partition, List.filter_cons]
    cases h : check q point <;> simp [h, ih]

theorem partition_length (q : Question nE nN E N)
    (data : List (DataPoint nE nN E N C)) :
    (partition q data).1.length + (partition q data).2.length = data.length := by
  induction data with
  | nil => rfl
  | cons point rest ih =>
    simp only [partition]
    cases h : check q point <;> simp [h] <;> omega

theorem goodState_stepQ (data : List (DataPoint nE nN E N C)) (cur : ℚ)
    {b : ℚ × Option (Question nE nN E N)} (hb : goodState data b)
    (q : Question nE nN E N) : goodState data (stepQ data cur b q) := by
  unfold stepQ
  split
  · exact hb
  · rename_i h
    push_neg at h
    split
    · refine ⟨fun hcon => by simp at hcon, ?_⟩
      intro q' hq'
      simp only [Option.some.injEq] at hq'
      subst hq'
      exact ⟨fun hnil => h.1 (by rw [hnil]; rfl),
        fun hnil => h.2 (by rw [hnil]; rfl)⟩
    · exact hb

theorem goodState_foldl (data : List (DataPoint nE nN E N C)) (cur : ℚ)
    (qs : List (Question nE nN E N)) {b : ℚ × Option (Question nE nN E N)}
    (hb : goodState data b) :
    goodState data (qs.foldl (stepQ data cur) b) := by
  induction qs generalizing b with
  | nil => exact hb
  | cons q qs ih => exact ih (goodState_stepQ data cur hb q)

theorem foldl_append_fields (data : List (DataPoint nE nN E N C)) (cur : ℚ)
    (fs : List (Field nE nN)) :
    ∀ (acc : List (Question nE nN E N)) (b : ℚ × Option (Question nE nN E N)),
    ((fs.foldl (fun a f => a ++ unique_questions data f) acc).foldl
        (stepQ data cur) b)
      = fs.foldl
          (fun best f => (unique_questions data f).foldl (stepQ data cur) best)
          (acc.foldl (stepQ data cur) b) := by
  induction fs with
  | nil => intro acc b; rfl
  | cons f fs ih =>
    intro acc b
    simp only [List.foldl_cons]
    rw [ih, List.foldl_append]

/-- `find_best_split` is the scan of `stepQ` over the flattened candidate
enumeration. -/
theorem find_best_split_eq (data : List (DataPoint nE nN E N C)) :
    find_best_split data
      = (allQuestions data).foldl (stepQ data (gini data)) (0, none) := by
  unfold find_best_split allQuestions
  rw [foldl_append_fields]
  rfl

theorem find_best_split_good (data : List (DataPoint nE nN E N C)) :
    goodState data (find_best_split data) := by
  rw [find_best_split_eq]
  exact goodState_foldl data (gini data) (allQuestions data)
    ⟨fun _ => rfl, fun q h => by simp at h⟩

/-- When `find_best_split` reports a non-zero gain it also holds a question, so
the `question.unwrap()` at lib.rs line 221 is reachable only with `Some`. -/
theorem find_best_split_isSome (data : List (DataPoint nE nN E N C))
    (h : (find_best_split data).1 ≠ 0) : (find_best_split data).2.isSome := by
  cases hs : (find_best_split data).2 with
  | none => exact absurd ((find_best_split_good data).1 hs) h
  | some q => rfl

theorem partition_lt_of_valid (data : List (DataPoint nE nN E N C))
    (q : Question nE nN E N) (h : validSplit data q) :
    (partition q data).1.length < data.length ∧
      (partition q data).2.length < data.length := by
  have hsum := partition_length (C := C) q data
  have h1 : (partition q data).1.length ≠ 0 :=
    fun hz => h.1 (List.length_eq_zero.mp hz)
  have h2 : (partition q data).2.length ≠ 0 :=
    fun hz => h.2 (List.length_eq_zero.mp hz)
  omega

theorem partition_lt_of_some (data : List (DataPoint nE nN E N C))
    (q : Question nE nN E N) (hq : (find_best_split data).2 = some q) :
    (partition q data).1.length < data.length ∧
      (partition q data).2.length < data.length :=
  partition_lt_of_valid data q ((find_best_split_good data).2 q hq)

/-- `build_tree` (lib.rs lines 214-229): leaf exactly when the best gain is 0,
otherwise a decision node on the best question with the two partitions grown
recursively.  The `unwrap` is `Option.get` justified by
`find_best_split_isSome`; termination follows from both partitions being
strictly smaller. -/
def build_tree (data : List (DataPoint nE nN E N C)) : Node nE nN E N C :=
  if hg : (find_best_split data).1 = 0 then
    Node.Leaf (class_counts data)
  else
    Node.Decision ((find_best_split data).2.get (find_best_split_isSome data hg))
      (build_tree
        (partition ((find_best_split data).2.get (find_best_split_isSome data hg))
          data).1)
      (build_tree
        (partition ((find_best_split data).2.get (find_best_split_isSome data hg))
          data).2)
termination_by data.length
decreasing_by
  · exact (partition_lt_of_some data _ (Option.some_get _).symm).1
  · exact (partition_lt_of_some data _ (Option.some_get _).symm).2

/-- `classify` (lib.rs lines 230-245): return the distribution at a leaf,
recurse into the branch selected by `check` at a decision node. -/
def classify (point : DataPoint nE nN E N C) :
    Node nE nN E N C → List (C × Nat)
  | .Leaf x => x
  | .Decision question true_branch false_branch =>
      if check question point then classify point true_branch
      else classify point false_branch

theorem partition_subset_left (q : Question nE nN E N)
    (data : List (DataPoint nE nN E N C)) :
    ∀ p ∈ (partition q data).1, p ∈ data := by
  intro p hp
  rw [partition_eq_filter] at hp
  exact List.mem_of_mem_filter hp

theorem partition_subset_right (q : Question nE nN E N)
    (data : List (DataPoint nE nN E N C)) :
    ∀ p ∈ (partition q data).2, p ∈ data := by
  intro p hp
  rw [partition_eq_filter] at hp
  exact List.mem_of_mem_filter hp

theorem bump_ne_nil (m : List (C × Nat)) (c : C) : bump m c ≠ [] := by
  rcases m with _ | ⟨⟨k, n⟩, rest⟩
  · simp [bump]
  · unfold bump
    split <;> simp

theorem foldl_bump_ne_nil (data : List (DataPoint nE nN E N C))
    (m : List (C × Nat)) (hm : m ≠ []) :
    data.foldl (fun m point => bump m point.cls) m ≠ [] := by
  induction data generalizing m with
  | nil => exact hm
  | cons p rest ih => exact ih _ (bump_ne_nil m p.cls)

theorem class_counts_ne_nil (data : List (DataPoint nE nN E N C))
    (h : data ≠ []) : class_counts data ≠ [] := by
  cases data with
  | nil => exact absurd rfl h
  | cons p rest =>
    unfold class_counts
    simp only [List.foldl_cons]
    exact foldl_bump_ne_nil rest _ (bump_ne_nil [] p.cls)

theorem lookupCount_bump (m : List (C × Nat)) (c c' : C) :
    lookupCount (bump m c) c'
      = lookupCount m c' + (if c = c' then 1 else 0) := by
  induction m with
  | nil => simp [bump, lookupCount]
  | cons kv rest ih =>
    rcases kv with ⟨k, n⟩
    by_cases hk : k = c
    · subst hk
      simp only [bump, if_pos rfl, lookupCount]
      by_cases hk' : k = c' <;> simp [hk', lookupCount]
    · simp only [bump, if_neg hk, lookupCount]
      by_cases hk' : k = c'
      · subst hk'
        have hck : ¬c = k := fun h => hk h.symm
        simp [lookupCount, hk, hck]
      · simp [lookupCount, hk', ih]

theorem lookupCount_foldl_bump (data : List (DataPoint nE nN E N C))
    (m : List (C × Nat)) (c : C) :
    lookupCount (data.foldl (fun m point => bump m point.cls) m) c
      = lookupCount m c
          + (data.filter (fun p => decide (p.cls = c))).length := by
  induction data generalizing m with
  | nil => simp
  | cons p rest ih =>
    simp only [List.foldl_cons, List.filter_cons]
    rw [ih, lookupCount_bump]
    by_cases h : p.cls = c <;> simp [h] <;> omega

/-- The leaf distribution counts each label exactly as often as it occurs in
the record list. -/
theorem class_counts_lookup (data : List (DataPoint nE nN E N C)) (c : C) :
    lookupCount (class_counts data) c
      = (data.filter (fun p => decide (p.cls = c))).length := by
  unfold class_counts
  rw [lookupCount_foldl_bump]
  simp [lookupCount]

theorem foldl_bump_const (c : C) (data : List (DataPoint nE nN E N C))
    (hall : ∀ p ∈ data, p.cls = c) :
    ∀ n, data.foldl (fun m point => bump m point.cls) [(c, n)]
      = [(c, n + data.length)] := by
  induction data with
  | nil => intro n; simp
  | cons p rest ih =>
    intro n
    have hp : p.cls = c := hall p (by simp)
    simp only [List.foldl_cons, hp]
    have hb : bump [(c, n)] c = [(c, n + 1)] := by simp [bump]
    rw [hb, ih (fun p hp2 => hall p (by simp [hp2])) (n + 1)]
    simp only [List.length_cons, List.cons.injEq, Prod.mk.injEq, true_and,
      and_true]
    omega

theorem class_counts_const (c : C) (data : List (DataPoint nE nN E N C))
    (hne : data ≠ []) (hall : ∀ p ∈ data, p.cls = c) :
    class_counts data = [(c, data.length)] := by
  cases data with
  | nil => exact absurd rfl hne
  | cons p rest =>
    unfold class_counts
    have hp : p.cls = c := hall p (by simp)
    simp only [List.foldl_cons, hp]
    have hb : bump ([] : List (C × Nat)) c = [(c, 1)] := rfl
    rw [hb, foldl_bump_const c rest (fun p hp2 => hall p (by simp [hp2])) 1]
    simp only [List.length_cons, List.cons.injEq, Prod.mk.injEq, true_and,
      and_true]
    omega

/-- `gini` of a non-empty single-label record list is exactly 0. -/
theorem gini_const (c : C) (data : List (DataPoint nE nN E N C))
    (hne : data ≠ []) (hall : ∀ p ∈ data, p.cls = c) : gini data = 0 := by
  unfold gini
  rw [class_counts_const c data hne hall]
  simp only [List.foldl_cons, List.foldl_nil]
  have hlen : ((data.length : ℚ)) ≠ 0 :=
    Nat.cast_ne_zero.mpr (fun h => hne (List.length_eq_zero.mp h))
  rw [div_self hlen]
  norm_num

theorem info_gain_zero (left right : List (DataPoint nE nN E N C))
    (hl : gini left = 0) (hr : gini right = 0) :
    info_gain left right 0 = 0 := by
  unfold info_gain
  rw [hl, hr]
  ring

theorem stepQ_const (c : C) (data : List (DataPoint nE nN E N C))
    (hall : ∀ p ∈ data, p.cls = c) (cur : ℚ) (hcur : cur = 0)
    {b : ℚ × Option (Question nE nN E N)} (hb : b.1 = 0)
    (q : Question nE nN E N) : (stepQ data cur b q).1 = 0 := by
  unfold stepQ
  split
  · exact hb
  · rename_i h
    push_neg at h
    have h1 : (partition q data).1 ≠ [] :=
      fun hz => h.1 (by rw [hz]; rfl)
    have h2 : (partition q data).2 ≠ [] :=
      fun hz => h.2 (by rw [hz]; rfl)
    have g1 : gini (partition q data).1 = 0 :=
      gini_const c _ h1 (fun p hp => hall p (partition_subset_left q data p hp))
    have g2 : gini (partition q data).2 = 0 :=
      gini_const c _ h2 (fun p hp => hall p (partition_subset_right q data p hp))
    have hg : info_gain (partition q data).1 (partition q data).2 cur = 0 := by
      rw [hcur]
      exact info_gain_zero _ _ g1 g2
    split
    · simpa using hg
    · exact hb

theorem foldl_stepQ_const (c : C) (data : List (DataPoint nE nN E N C))
    (hall : ∀ p ∈ data, p.cls = c) (cur : ℚ) (hcur : cur = 0)
    (qs : List (Question nE nN E N)) {b : ℚ × Option (Question nE nN E N)}
    (hb : b.1 = 0) : (qs.foldl (stepQ data cur) b).1 = 0 := by
  induction qs generalizing b with
  | nil => exact hb
  | cons q qs ih => exact ih (stepQ_const c data hall cur hcur hb q)

/-- On a non-empty single-label record list every candidate gain is 0, so the
best gain stays at its initial value 0. -/
theorem find_best_split_const (c : C) (data : List (DataPoint nE nN E N C))
    (hne : data ≠ []) (hall : ∀ p ∈ data, p.cls = c) :
    (find_best_split data).1 = 0 := by
  rw [find_best_split_eq]
  exact foldl_stepQ_const c data hall _ (gini_const c data hne hall) _ rfl

/-- Unfolding `build_tree` in the zero-gain base case. -/
theorem build_tree_leaf (data : List (DataPoint nE nN E N C))
    (h : (find_best_split data).1 = 0) :
    build_tree data = Node.Leaf (class_counts data) := by
  rw [build_tree]
  rw [dif_pos h]

theorem stepQ_skip (data : List (DataPoint nE nN E N C)) (cur : ℚ)
    (b : ℚ × Option (Question nE nN E N)) (q : Question nE nN E N)
    (h : (partition q data).1 = [] ∨ (partition q data).2 = []) :
    stepQ data cur b q = b := by
  have hc : (partition q data).1.length = 0 ∨ (partition q data).2.length = 0 := by
    rcases h with h | h
    · left; rw [h]; rfl
    · right; rw [h]; rfl
  unfold stepQ
  rw [if_pos hc]

theorem foldl_stepQ_skip (data : List (DataPoint nE nN E N C)) (cur : ℚ)
    (qs : List (Question nE nN E N)) (b : ℚ × Option (Question nE nN E N))
    (h : ∀ q ∈ qs, (partition q data).1 = [] ∨ (partition q data).2 = []) :
    qs.foldl (stepQ data cur) b = b := by
  induction qs generalizing b with
  | nil => rfl
  | cons q qs ih =>
    simp only [List.foldl_cons]
    rw [stepQ_skip data cur b q (h q (by simp))]
    exact ih _ (fun q' hq' => h q' (by simp [hq']))

theorem mem_insertQ {s : List (Question nE nN E N)} {x q : Question nE nN E N}
    (h : q ∈ insertQ s x) : q ∈ s ∨ q = x := by
  unfold insertQ at h
  split at h
  · exact .inl h
  · rcases List.mem_append.mp h with h | h
    · exact .inl h
    · simp at h
      exact .inr h

theorem foldl_insertQ_mem (t : Field nE nN) :
    ∀ (l : List (DataPoint nE nN E N C)) (s : List (Question nE nN E N))
      (q : Question nE nN E N),
      q ∈ l.foldl (fun s point => insertQ s (mkQuestion t point)) s →
      q ∈ s ∨ ∃ p ∈ l, q = mkQuestion t p := by
  intro l
  induction l with
  | nil => intro s q h; exact .inl h
  | cons p rest ih =>
    intro s q h
    simp only [List.foldl_cons] at h
    rcases ih _ q h with h' | ⟨p', hp', rfl⟩
    · rcases mem_insertQ h' with h'' | rfl
      · exact .inl h''
      · exact .inr ⟨p, by simp, rfl⟩
    · exact .inr ⟨p', by simp [hp'], rfl⟩

/-- Every candidate question is built from the value some record takes on the
scanned field. -/
theorem unique_questions_mem (data : List (DataPoint nE nN E N C))
    (t : Field nE nN) (q : Question nE nN E N)
    (h : q ∈ unique_questions data t) : ∃ p ∈ data, q = mkQuestion t p := by
  rcases foldl_insertQ_mem t data [] q h with h' | h'
  · simp at h'
  · exact h'

theorem foldl_append_mem {β : Type} (g : Field nE nN → List β) :
    ∀ (fs : List (Field nE nN)) (acc : List β) (q : β),
      q ∈ fs.foldl (fun a f => a ++ g f) acc → q ∈ acc ∨ ∃ f ∈ fs, q ∈ g f := by
  intro fs
  induction fs with
  | nil => intro acc q h; exact .inl h
  | cons f fs ih =>
    intro acc q h
    simp only [List.foldl_cons] at h
    rcases ih _ q h with h' | ⟨f', hf', hq⟩
    · rcases List.mem_append.mp h' with h'' | h''
      · exact .inl h''
      · exact .inr ⟨f, by simp, h''⟩
    · exact .inr ⟨f', by simp [hf'], hq⟩

theorem allQuestions_mem (data : List (DataPoint nE nN E N C))
    (q : Question nE nN E N) (h : q ∈ allQuestions data) :
    ∃ t, ∃ p ∈ data, q = mkQuestion t p := by
  unfold allQuestions at h
  rcases foldl_append_mem (unique_questions data) (fields nE nN) [] q h with
    h' | ⟨f, _, hq⟩
  · simp at h'
  · exact ⟨f, unique_questions_mem data f q hq⟩

theorem check_mkQuestion_all (data : List (DataPoint nE nN E N C))
    (hfeat : ∀ p ∈ data, ∀ p' ∈ data,
      (∀ i, p.eqv i = p'.eqv i) ∧ ∀ j, p.num j = p'.num j)
    (t : Field nE nN) {p : DataPoint nE nN E N C} (hp : p ∈ data)
    {p' : DataPoint nE nN E N C} (hp' : p' ∈ data) :
    check (mkQuestion t p) p' = true := by
  cases t with
  | eqF i =>
    simp only [mkQuestion, check, decide_eq_true_eq]
    exact (hfeat p hp p' hp').1 i
  | numF j =>
    simp only [mkQuestion, check, decide_eq_true_eq]
    exact ge_of_eq ((hfeat p' hp' p hp).2 j)

theorem partition_all_true (q : Question nE nN E N)
    (data : List (DataPoint nE nN E N C))
    (h : ∀ p ∈ data, check q p = true) : (partition q data).2 = [] := by
  rw [partition_eq_filter]
  simp only []
  rw [List.filter_eq_nil_iff]
  intro p hp
  simp [h p hp]

/-- When every feature takes one value across the whole record list, every
candidate split has an empty false side and is skipped, so `find_best_split`
returns its initial state `(0, none)`. -/
theorem find_best_split_no_signal (data : List (DataPoint nE nN E N C))
    (hfeat : ∀ p ∈ data, ∀ p' ∈ data,
      (∀ i, p.eqv i = p'.eqv i) ∧ ∀ j, p.num j = p'.num j) :
    find_best_split data = (0, none) := by
  rw [find_best_split_eq]
  apply foldl_stepQ_skip
  intro q hq
  rcases allQuestions_mem data q hq with ⟨t, p, hp, rfl⟩
  right
  exact partition_all_true _ data
    (fun p' hp' => check_mkQuestion_all data hfeat t hp hp')

/-- Concrete schema instance: one equality field over `ℤ`, no number fields,
labels in `ℤ`. -/
abbrev DP1 := DataPoint 1 0 ℤ ℤ ℤ

/-- Concrete schema instance: one equality field and one number field. -/
abbrev DP2 := DataPoint 1 1 ℤ ℤ ℤ

/-- Record with feature value 0 and label 0. -/
def pRed : DP1 := ⟨fun _ => 0, Fin.elim0, 0⟩

/-- Record with feature value 1 and label 1. -/
def pGreen : DP1 := ⟨fun _ => 1, Fin.elim0, 1⟩

/-- Two records separable by the equality feature, one label each: both
candidate questions split perfectly, so their gains tie. -/
def twoClassData : List DP1 := [pRed, pGreen]

/-- Records with distinct feature values but one shared label 7. -/
def pSameA : DP1 := ⟨fun _ => 0, Fin.elim0, 7⟩

/-- Second record of the shared-label pair. -/
def pSameB : DP1 := ⟨fun _ => 1, Fin.elim0, 7⟩

/-- A pure two-record list with a separating feature: every valid split has
gain exactly 0. -/
def sameClassData : List DP1 := [pSameA, pSameB]

/-- Record with features (5, 7) and label 0. -/
def pNoSigA : DP2 := ⟨fun _ => 5, fun _ => 7, 0⟩

/-- Record with features (5, 7) and label 1. -/
def pNoSigB : DP2 := ⟨fun _ => 5, fun _ => 7, 1⟩

/-- Two records with identical features on every field but different labels:
the no-signal scenario. -/
def noSignalData : List DP2 := [pNoSigA, pNoSigB]

theorem stepQ_update (data : List (DataPoint nE nN E N C)) (cur : ℚ)
    (b : ℚ × Option (Question nE nN E N)) (q : Question nE nN E N)
    (hvalid : (partition q data).1 ≠ [] ∧ (partition q data).2 ≠ [])
    (hge : b.1 ≤ info_gain (partition q data).1 (partition q data).2 cur) :
    stepQ data cur b q
      = (info_gain (partition q data).1 (partition q data).2 cur, some q) := by
  have hnot : ¬((partition q data).1.length = 0
      ∨ (partition q data).2.length = 0) := by
    push_neg
    exact ⟨fun h => hvalid.1 (List.length_eq_zero.mp h),
      fun h => hvalid.2 (List.length_eq_zero.mp h)⟩
  unfold stepQ
  rw [if_neg hnot, if_pos hge]

section

attribute [local semireducible] Rat.add Rat.sub Rat.mul Rat.inv

/-- C1 (amended): split-search ties are resolved last-seen-wins.  The scan
replaces the held best whenever a candidate's gain is greater than or equal to
the best gain so far (`gain >= best_gain` at lib.rs line 205), so whenever the
final enumerated candidate is a valid split whose gain ties or exceeds the
best reached over all earlier candidates, that last candidate is the question
returned, and its gain is the returned gain. -/
theorem c1_tie_last_seen_wins (data : List (DataPoint nE nN E N C))
    (l1 : List (Question nE nN E N)) (q : Question nE nN E N)
    (hqs : allQuestions data = l1 ++ [q])
    (hvalid : (partition q data).1 ≠ [] ∧ (partition q data).2 ≠ [])
    (hge : (l1.foldl (stepQ data (gini data)) (0, none)).1
      ≤ info_gain (partition q data).1 (partition q data).2 (gini data)) :
    (find_best_split data).2 = some q
      ∧ (find_best_split data).1
        = info_gain (partition q data).1 (partition q data).2 (gini data) := by
  rw [find_best_split_eq, hqs, List.foldl_append]
  simp only [List.foldl_cons, List.foldl_nil]
  rw [stepQ_update data (gini data) _ q hvalid hge]
  exact ⟨rfl, rfl⟩

/-- C1 witness: on `twoClassData` the enumeration is `[eqQ 0 0, eqQ 0 1]`, the
last candidate is valid and ties the earlier best, and it is the question
returned. -/
theorem c1_witness :
    (allQuestions twoClassData = [Question.eqQ 0 0] ++ [Question.eqQ 0 1]
      ∧ ((partition (Question.eqQ (0 : Fin 1) (1 : ℤ)) twoClassData).1 ≠ []
        ∧ (partition (Question.eqQ (0 : Fin 1) (1 : ℤ)) twoClassData).2 ≠ [])
      ∧ ([Question.eqQ (0 : Fin 1) (0 : ℤ)].foldl
            (stepQ twoClassData (gini twoClassData)) (0, none)).1
          ≤ info_gain
              (partition (Question.eqQ (0 : Fin 1) (1 : ℤ)) twoClassData).1
              (partition (Question.eqQ (0 : Fin 1) (1 : ℤ)) twoClassData).2
              (gini twoClassData))
    ∧ ((find_best_split twoClassData).2 = some (Question.eqQ 0 1)
      ∧ (find_best_split twoClassData).1
        = info_gain
            (partition (Question.eqQ (0 : Fin 1) (1 : ℤ)) twoClassData).1
            (partition (Question.eqQ (0 : Fin 1) (1 : ℤ)) twoClassData).2
            (gini twoClassData)) :=
  ⟨⟨by decide, ⟨by decide, by decide⟩, by decide⟩,
    c1_tie_last_seen_wins twoClassData [Question.eqQ 0 0] (Question.eqQ 0 1)
      (by decide) ⟨by decide, by decide⟩ (by decide)⟩

/-- C1 counterexample: on `twoClassData` both candidates are valid splits with
equal information gain, the candidate `eqQ 0 0` is enumerated and evaluated
first, yet `find_best_split` returns the other candidate `eqQ 0 1` — so the
first-evaluated candidate among equal-gain ties is not the one returned. -/
theorem c1_first_seen_counterexample :
    unique_questions twoClassData (Field.eqF 0)
        = [Question.eqQ 0 0, Question.eqQ 0 1]
      ∧ info_gain
          (partition (Question.eqQ (0 : Fin 1) (0 : ℤ)) twoClassData).1
          (partition (Question.eqQ (0 : Fin 1) (0 : ℤ)) twoClassData).2
          (gini twoClassData)
        = info_gain
            (partition (Question.eqQ (0 : Fin 1) (1 : ℤ)) twoClassData).1
            (partition (Question.eqQ (0 : Fin 1) (1 : ℤ)) twoClassData).2
            (gini twoClassData)
      ∧ (partition (Question.eqQ (0 : Fin 1) (0 : ℤ)) twoClassData).1 ≠ []
      ∧ (partition (Question.eqQ (0 : Fin 1) (0 : ℤ)) twoClassData).2 ≠ []
      ∧ find_best_split twoClassData = (1 / 2, some (Question.eqQ 0 1))
      ∧ (Question.eqQ 0 1 : Question 1 0 ℤ ℤ) ≠ Question.eqQ 0 0 := by
  refine ⟨by decide, by decide, by decide, by decide, by decide, by decide⟩

/-- C2 (amended): `find_best_split` returns `(0, None)` when no candidate
split has two non-empty sides, and whenever the returned question is `None`
the returned gain is 0; but a returned gain of 0 does not force `None` — a
valid split whose gain is exactly 0 still updates the held question. -/
theorem c2_none_question (data : List (DataPoint nE nN E N C))
    (h : ∀ q ∈ allQuestions data,
      (partition q data).1 = [] ∨ (partition q data).2 = []) :
    find_best_split data = (0, none)
      ∧ ((find_best_split data).2 = none → (find_best_split data).1 = 0) := by
  constructor
  · rw [find_best_split_eq]
    exact foldl_stepQ_skip data (gini data) (allQuestions data) (0, none) h
  · exact (find_best_split_good data).1

/-- C2 witness: on `noSignalData` every candidate has an empty side, and the
result is `(0, none)`. -/
theorem c2_witness :
    (∀ q ∈ allQuestions noSignalData,
      (partition q noSignalData).1 = [] ∨ (partition q noSignalData).2 = [])
    ∧ (find_best_split noSignalData = (0, none)
      ∧ ((find_best_split noSignalData).2 = none →
          (find_best_split noSignalData).1 = 0)) :=
  ⟨by decide, c2_none_question noSignalData (by decide)⟩

/-- C2 counterexample: on `sameClassData` the returned gain is 0 yet the
returned question is not `None` — a zero-gain valid split was recorded because
the update comparison is `>=`. -/
theorem c2_zero_gain_some_counterexample :
    (find_best_split sameClassData).1 = 0
      ∧ (find_best_split sameClassData).2 ≠ none := by
  refine ⟨by decide, by decide⟩

/-- C3 (amended): `build_tree` on the empty record list does not fail fast
with an "empty training set" error: it returns a `Leaf` whose label
distribution is empty.  No division by zero is reached — `gini` of the empty
list is 1 because its subtraction loop never executes, and
`find_best_split` returns `(0, None)`. -/
theorem c3_empty_build_tree :
    build_tree ([] : List (DataPoint nE nN E N C)) = Node.Leaf []
      ∧ gini ([] : List (DataPoint nE nN E N C)) = 1
      ∧ find_best_split ([] : List (DataPoint nE nN E N C)) = (0, none) := by
  have hsplit : find_best_split ([] : List (DataPoint nE nN E N C))
      = (0, none) := by
    rw [find_best_split_eq]
    apply foldl_stepQ_skip
    intro q hq
    rcases allQuestions_mem [] q hq with ⟨t, p, hp, rfl⟩
    simp at hp
  refine ⟨?_, rfl, hsplit⟩
  rw [build_tree_leaf _ (by rw [hsplit])]
  rfl

/-- C3 counterexample: at the concrete empty record list of the `DP1` schema,
`build_tree` returns a leaf with an empty distribution — it neither raises an
"empty training set" error nor avoids the empty-distribution leaf the claim
rules out. -/
theorem c3_counterexample : build_tree ([] : List DP1) = Node.Leaf [] := by
  rw [build_tree_leaf ([] : List DP1) (by decide)]
  rfl

/-- C4: recursion in `build_tree` strictly shrinks the record list: whenever
`find_best_split` returns a question (the only case in which a split is
taken), both partitions are non-empty and strictly smaller than the parent,
and their lengths sum to the parent's length.  `build_tree` itself is a total
function of the record list, witnessing termination. -/
theorem c4_split_shrinks (data : List (DataPoint nE nN E N C)) (g : ℚ)
    (q : Question nE nN E N) (h : find_best_split data = (g, some q)) :
    (partition q data).1 ≠ [] ∧ (partition q data).2 ≠ []
      ∧ (partition q data).1.length < data.length
      ∧ (partition q data).2.length < data.length
      ∧ (partition q data).1.length + (partition q data).2.length
        = data.length := by
  have hq : (find_best_split data).2 = some q := by rw [h]
  have hv := (find_best_split_good data).2 q hq
  have hlt := partition_lt_of_valid data q hv
  exact ⟨hv.1, hv.2, hlt.1, hlt.2, partition_length q data⟩

/-- C4 witness: on `twoClassData` the chosen split separates the two records,
each side a strictly smaller non-empty singleton. -/
theorem c4_witness :
    find_best_split twoClassData = (1 / 2, some (Question.eqQ 0 1))
      ∧ ((partition (Question.eqQ (0 : Fin 1) (1 : ℤ)) twoClassData).1 ≠ []
        ∧ (partition (Question.eqQ (0 : Fin 1) (1 : ℤ)) twoClassData).2 ≠ []
        ∧ (partition (Question.eqQ (0 : Fin 1) (1 : ℤ)) twoClassData).1.length
          < twoClassData.length
        ∧ (partition (Question.eqQ (0 : Fin 1) (1 : ℤ)) twoClassData).2.length
          < twoClassData.length
        ∧ (partition (Question.eqQ (0 : Fin 1) (1 : ℤ)) twoClassData).1.length
            + (partition (Question.eqQ (0 : Fin 1) (1 : ℤ)) twoClassData).2.length
          = twoClassData.length) :=
  ⟨by decide,
    c4_split_shrinks twoClassData (1 / 2) (Question.eqQ 0 1) (by decide)⟩

theorem partition_count (q : Question nE nN E N)
    (data : List (DataPoint nE nN E N C)) (p : DataPoint nE nN E N C) :
    (partition q data).1.count p + (partition q data).2.count p
      = data.count p := by
  induction data with
  | nil => rfl
  | cons point rest ih =>
    simp only [partition]
    cases h : check q point <;>
      by_cases hp : point = p <;>
        simp [h, hp, List.count_cons, ih] <;> omega

/-- C5: `partition` is the stable two-way split by the question's predicate:
the first output is exactly the sublist of records passing `check`, the second
exactly those failing it (so relative order within each side is the order of
the input), the two lengths sum to the input length, and every record occurs
in the two outputs exactly as often as in the input. -/
theorem c5_partition_spec (q : Question nE nN E N)
    (data : List (DataPoint nE nN E N C)) :
    partition q data
        = (data.filter (fun p => check q p), data.filter (fun p => !check q p))
      ∧ (partition q data).1.length + (partition q data).2.length
        = data.length
      ∧ ∀ p : DataPoint nE nN E N C,
          (partition q data).1.count p + (partition q data).2.count p
            = data.count p :=
  ⟨partition_eq_filter q data, partition_length q data, partition_count q data⟩

/-- C6: purity floor — on a non-empty record list whose records all carry one
label, `gini` returns exactly 0 and `build_tree` returns a single `Leaf`
holding the list's label distribution. -/
theorem c6_purity_floor (data : List (DataPoint nE nN E N C)) (c : C)
    (hne : data ≠ []) (hall : ∀ p ∈ data, p.cls = c) :
    gini data = 0 ∧ build_tree data = Node.Leaf (class_counts data) :=
  ⟨gini_const c data hne hall,
    build_tree_leaf data (find_best_split_const c data hne hall)⟩

/-- C6 witness: `sameClassData` is non-empty, all labels are 7, its `gini` is
0 and its tree is a single leaf. -/
theorem c6_witness :
    (sameClassData ≠ [] ∧ ∀ p ∈ sameClassData, p.cls = 7)
      ∧ (gini sameClassData = 0
        ∧ build_tree sameClassData = Node.Leaf (class_counts sameClassData)) :=
  ⟨⟨by decide, by decide⟩,
    c6_purity_floor sameClassData 7 (by decide) (by decide)⟩

/-- C7: no-signal case — with at least two records, every feature constant
across the records and labels not all equal, `find_best_split` returns gain 0
with no question, and `build_tree` returns a single `Leaf` whose distribution
counts every record's label (each label's count is its number of occurrences
in the record list). -/
theorem c7_no_signal (data : List (DataPoint nE nN E N C))
    (hlen : 2 ≤ data.length)
    (hfeat : ∀ p ∈ data, ∀ p' ∈ data,
      (∀ i, p.eqv i = p'.eqv i) ∧ ∀ j, p.num j = p'.num j)
    (hlab : ∃ p ∈ data, ∃ p' ∈ data, p.cls ≠ p'.cls) :
    find_best_split data = (0, none)
      ∧ build_tree data = Node.Leaf (class_counts data)
      ∧ ∀ c, lookupCount (class_counts data) c
          = (data.filter (fun p => decide (p.cls = c))).length := by
  have hsplit := find_best_split_no_signal data hfeat
  exact ⟨hsplit, build_tree_leaf data (by rw [hsplit]),
    fun c => class_counts_lookup data c⟩

/-- C7 witness: `noSignalData` has two records with identical features and
different labels; the split search returns `(0, none)` and the tree is one
leaf with the full mixed distribution. -/
theorem c7_witness :
    (2 ≤ noSignalData.length
      ∧ (∀ p ∈ noSignalData, ∀ p' ∈ noSignalData,
          (∀ i, p.eqv i = p'.eqv i) ∧ ∀ j, p.num j = p'.num j)
      ∧ ∃ p ∈ noSignalData, ∃ p' ∈ noSignalData, p.cls ≠ p'.cls)
    ∧ (find_best_split noSignalData = (0, none)
      ∧ build_tree noSignalData = Node.Leaf (class_counts noSignalData)
      ∧ ∀ c, lookupCount (class_counts noSignalData) c
          = (noSignalData.filter (fun p => decide (p.cls = c))).length) :=
  ⟨⟨by decide, by decide, by decide⟩,
    c7_no_signal noSignalData (by decide) (by decide) (by decide)⟩

theorem classify_build_tree_ne_nil (point : DataPoint nE nN E N C) :
    ∀ n (data : List (DataPoint nE nN E N C)), data.length ≤ n → data ≠ [] →
      classify point (build_tree data) ≠ [] := by
  intro n
  induction n with
  | zero =>
    intro data hl hne
    exact absurd (List.length_eq_zero.mp (Nat.le_zero.mp hl)) hne
  | succ n ih =>
    intro data hl hne
    by_cases hg : (find_best_split data).1 = 0
    · rw [build_tree_leaf data hg]
      exact class_counts_ne_nil data hne
    · rw [build_tree, dif_neg hg]
      have hq : (find_best_split data).2
          = some ((find_best_split data).2.get (find_best_split_isSome data hg)) :=
        (Option.some_get _).symm
      have hv := (find_best_split_good data).2 _ hq
      have hlt := partition_lt_of_valid data _ hv
      simp only [classify]
      split
      · exact ih _ (by omega) hv.1
      · exact ih _ (by omega) hv.2

/-- C8: `classify` is total (structural recursion on the finite tree): at a
`Leaf` it returns that leaf's distribution, at a `Decision` it recurses into
the true branch exactly when the record satisfies the node's question, and on
any tree built from a non-empty record list the returned distribution is
non-empty. -/
theorem c8_classify_total (point : DataPoint nE nN E N C)
    (data : List (DataPoint nE nN E N C)) (hne : data ≠ []) :
    classify point (build_tree data) ≠ []
      ∧ (∀ x : List (C × Nat), classify point (Node.Leaf x : Node nE nN E N C) = x)
      ∧ ∀ (q : Question nE nN E N) (t f : Node nE nN E N C),
          classify point (Node.Decision q t f)
            = if check q point then classify point t else classify point f :=
  ⟨classify_build_tree_ne_nil point data.length data le_rfl hne,
    fun x => rfl, fun q t f => rfl⟩

/-- C8 witness: classifying `pRed` with the tree built from `twoClassData`
returns a non-empty distribution, and the traversal equations hold. -/
theorem c8_witness :
    twoClassData ≠ []
      ∧ (classify pRed (build_tree twoClassData) ≠ []
        ∧ (∀ x : List (ℤ × Nat), classify pRed (Node.Leaf x : Node 1 0 ℤ ℤ ℤ) = x)
        ∧ ∀ (q : Question 1 0 ℤ ℤ) (t f : Node 1 0 ℤ ℤ ℤ),
            classify pRed (Node.Decision q t f)
              = if check q pRed then classify pRed t else classify pRed f) :=
  ⟨by decide, c8_classify_total pRed twoClassData (by decide)⟩

/-- C9: whenever `find_best_split` returns a non-zero gain it also returns
`Some` question, and partitioning by that question yields two non-empty
subsets — so the `question.unwrap()` in `build_tree` cannot panic and the
decision branch recurses on strictly smaller non-empty inputs. -/
theorem c9_unwrap_safe (data : List (DataPoint nE nN E N C))
    (h : (find_best_split data).1 ≠ 0) :
    ∃ q, (find_best_split data).2 = some q
      ∧ (partition q data).1 ≠ [] ∧ (partition q data).2 ≠ [] := by
  have hs := find_best_split_isSome data h
  have hq : (find_best_split data).2
      = some ((find_best_split data).2.get hs) := (Option.some_get hs).symm
  have hv := (find_best_split_good data).2 _ hq
  exact ⟨_, hq, hv.1, hv.2⟩

/-- C9 witness: on `twoClassData` the gain is 1/2 ≠ 0 and a question with two
non-empty partition sides is returned. -/
theorem c9_witness :
    (find_best_split twoClassData).1 ≠ 0
      ∧ ∃ q, (find_best_split twoClassData).2 = some q
        ∧ (partition q twoClassData).1 ≠ []
        ∧ (partition q twoClassData).2 ≠ [] :=
  ⟨by decide, c9_unwrap_safe twoClassData (by decide)⟩

/-- C10: `gini` is total on the empty record list — the label-count map of no
records is empty, so the subtraction loop never executes and the result is
exactly the initial impurity 1 (no division is ever performed). -/
theorem c10_gini_empty :
    class_counts ([] : List (DataPoint nE nN E N C)) = []
      ∧ gini ([] : List (DataPoint nE nN E N C)) = 1 :=
  ⟨rfl, rfl⟩

end

end DecisionLeaf
